import Mathlib

/-
Verification of the core scoring-and-aggregation pipeline of the
news-sentiment-analysis repository.

The development shallowly embeds the relevant Python code:

* `src/src/sentiment_analyzer.py` — text preprocessing (`_preprocess_text`),
  adapter output normalizers (`_normalize_vader_output`,
  `_normalize_textblob_output`), the weighted ensemble combiner
  (`_ensemble_combine`) and the top-level `analyze` entry point.
* `src/src/data_manager.py` — the verdict store (`store_analysis`,
  `_update_summary`, `cleanup_old_data`) over the two SQLite tables
  `analysis_results` and `analysis_summary`.
* `src/config.py` — `Config.CONFIDENCE_THRESHOLD`.

Modelling conventions: Python floats are modelled as exact rationals (ℚ);
Python dicts with a fixed insertion order are modelled as association
lists in that order; a Python `KeyError` escaping a function is modelled
by `Option` (`none` = the call raised); wall-clock inputs (`datetime.now`)
are passed in explicitly as parameters; SQLite tables are modelled as
lists of rows, `DELETE ... WHERE` as `List.filter`, and
`INSERT OR REPLACE` on the unique key `(keywords, date)` as
filter-out-then-append.  Character classes of the Python regexes are
modelled over their ASCII fragment (the repository feeds ASCII news text).
-/

namespace NewsSentiment

/-! ### Ensemble combiner (`_ensemble_combine`, sentiment_analyzer.py lines 265-305) -/

/-- Normalized output of one classifier adapter: the Python dict
`{sentiment, confidence, scores}` where `scores` is itself a dict kept in
insertion order. -/
structure Prediction where
  sentiment : String
  confidence : ℚ
  scores : List (String × ℚ)
  deriving DecidableEq, Repr

/-- The mutable accumulator `combined_scores = {'positive': 0.0, 'negative': 0.0,
'neutral': 0.0}` of `_ensemble_combine`. -/
structure Combined where
  positive : ℚ
  negative : ℚ
  neutral : ℚ
  deriving DecidableEq, Repr

/-- Model weights of `_ensemble_combine` (lines 271-276): `weights.get(model_name, 0.1)` —
an unknown model name falls back to the default weight 0.1. -/
def modelWeight (name : String) : ℚ :=
  if name = "roberta" then 4/10
  else if name = "finbert" then 3/10
  else if name = "vader" then 2/10
  else if name = "textblob" then 1/10
  else 1/10

/-- `Config.CONFIDENCE_THRESHOLD` from config.py line 35. -/
def CONFIDENCE_THRESHOLD : ℚ := 6/10

/-- One execution of `combined_scores[sentiment] += score * weight`: writing to a key
other than the three initialized ones raises `KeyError` (modelled as `none`). -/
def addScore (c : Combined) (key : String) (v : ℚ) : Option Combined :=
  if key = "positive" then some { c with positive := c.positive + v }
  else if key = "negative" then some { c with negative := c.negative + v }
  else if key = "neutral" then some { c with neutral := c.neutral + v }
  else none

/-- The inner loop `for sentiment, score in prediction['scores'].items()` of
`_ensemble_combine`, with the weight already fixed. -/
def foldScores (c : Combined) (w : ℚ) : List (String × ℚ) → Option Combined
  | [] => some c
  | (k, v) :: rest =>
    match addScore c k (v * w) with
    | some c' => foldScores c' w rest
    | none => none

/-- One iteration of the outer loop `for model_name, prediction in predictions.items()`:
look up the weight, bump `total_weight`, accumulate the scores. -/
def combineStep (acc : Combined × ℚ) (p : String × Prediction) : Option (Combined × ℚ) :=
  let w := modelWeight p.1
  (foldScores acc.1 w p.2.scores).map (fun c => (c, acc.2 + w))

/-- The full outer accumulation loop of `_ensemble_combine`. -/
def combineAll : List (String × Prediction) → Combined × ℚ → Option (Combined × ℚ)
  | [], acc => some acc
  | p :: rest, acc =>
    match combineStep acc p with
    | some acc' => combineAll rest acc'
    | none => none

/-- Python `max(combined_scores, key=combined_scores.get)`: iterates the dict in its
insertion order `positive, negative, neutral` and keeps the first maximal key
(`max` only replaces the current best on a strictly greater value). -/
def pyMax3 (c : Combined) : String :=
  if c.negative > c.positive then
    (if c.neutral > c.negative then "neutral" else "negative")
  else
    (if c.neutral > c.positive then "neutral" else "positive")

/-- Dictionary lookup `combined_scores[s]` for the three class keys. -/
def getScore (c : Combined) (s : String) : ℚ :=
  if s = "positive" then c.positive
  else if s = "negative" then c.negative
  else c.neutral

/-- Shallow embedding of `_ensemble_combine` (lines 265-305): empty input returns the
fixed fallback; otherwise the weighted scores are accumulated, divided by the total
weight of the models actually present, the argmax class is taken as the verdict and
the confidence-threshold override may force `neutral`. -/
def ensembleCombine (preds : List (String × Prediction)) : Option (String × ℚ × Combined) :=
  if preds = [] then some ("neutral", 1/2, ⟨33/100, 33/100, 34/100⟩)
  else
    match combineAll preds (⟨0, 0, 0⟩, 0) with
    | none => none
    | some (acc, totalWeight) =>
      let c : Combined :=
        if totalWeight > 0 then
          ⟨acc.positive / totalWeight, acc.negative / totalWeight, acc.neutral / totalWeight⟩
        else acc
      let finalSentiment := pyMax3 c
      let confidence := getScore c finalSentiment
      if confidence < CONFIDENCE_THRESHOLD then
        some ("neutral", max c.neutral (1/2), c)
      else
        some (finalSentiment, confidence, c)

/-- Projection of `ensembleCombine` onto the combined per-class scores it returns. -/
def combinedScoresOf (preds : List (String × Prediction)) : Option Combined :=
  (ensembleCombine preds).map (fun r => r.2.2)

/-- Every key occurring in every prediction's score dict is one of the three class
names (so no `combined_scores[sentiment]` lookup raises `KeyError`). -/
def validKeys (preds : List (String × Prediction)) : Prop :=
  ∀ p ∈ preds, ∀ kv ∈ p.2.scores, kv.1 = "positive" ∨ kv.1 = "negative" ∨ kv.1 = "neutral"

instance : DecidablePred validKeys := fun _ =>
  inferInstanceAs (Decidable (∀ _ ∈ _, ∀ _ ∈ _, _ ∨ _ ∨ _))

/-- Sum of the score values a prediction's dict assigns to class `cls` (with dict
semantics — no duplicate keys — this is the model's score for that class, and `0`
when the class is absent). -/
def classSum (scores : List (String × ℚ)) (cls : String) : ℚ :=
  ((scores.filter (fun kv => kv.1 == cls)).map (fun kv => kv.2)).sum

/-- Total value mass of one prediction's score dict. -/
def sumScores (p : Prediction) : ℚ := (p.scores.map (fun kv => kv.2)).sum

/-- Weighted per-class numerator `Σ_model weight(model) * score(model, cls)`. -/
def weightedClassSum (preds : List (String × Prediction)) (cls : String) : ℚ :=
  (preds.map (fun p => modelWeight p.1 * classSum p.2.scores cls)).sum

/-- `total_weight` after the loop: the sum of the weights of the models present. -/
def totalWeightOf (preds : List (String × Prediction)) : ℚ :=
  (preds.map (fun p => modelWeight p.1)).sum

/-- Concrete predictions used to witness the low-confidence override. -/
def c1WitnessPreds : List (String × Prediction) :=
  [("vader", ⟨"positive", 1/2, [("positive", 1/2), ("neutral", 1/4), ("negative", 1/4)]⟩)]

/-- Concrete predictions (one known model, one unknown model name) used to witness
the weighted-mean formula. -/
def c3WitnessPreds : List (String × Prediction) :=
  [("vader", ⟨"positive", 9/10, [("positive", 7/10), ("neutral", 2/10), ("negative", 1/10)]⟩),
   ("mystery", ⟨"neutral", 1/2, [("positive", 1/2), ("neutral", 1/2), ("negative", 0)]⟩)]

/-! ### Adapter output normalizers (`_normalize_vader_output` lines 207-234,
`_normalize_textblob_output` lines 236-263) -/

/-- Shallow embedding of `_normalize_vader_output`: thresholds the compound score at
±0.05, and renormalizes the native pos/neu/neg proportions to sum to one, guarding
division by zero with all-zero scores.  The score dict is built in the source's
insertion order `positive, neutral, negative`. -/
def normalize_vader_output (compound pos neu neg : ℚ) : Prediction :=
  let sc : String × ℚ :=
    if compound ≥ 5/100 then ("positive", |compound|)
    else if compound ≤ -(5/100) then ("negative", |compound|)
    else ("neutral", 1 - |compound|)
  let total := pos + neu + neg
  { sentiment := sc.1, confidence := sc.2,
    scores := [("positive", if total > 0 then pos / total else 0),
               ("neutral", if total > 0 then neu / total else 0),
               ("negative", if total > 0 then neg / total else 0)] }

/-- Shallow embedding of `_normalize_textblob_output`: thresholds the scalar polarity
at ±0.1 and derives scores `positive = max 0 polarity`, `negative = max 0 (-polarity)`,
`neutral = 1 - positive - negative`. -/
def normalize_textblob_output (polarity : ℚ) : Prediction :=
  let sc : String × ℚ :=
    if polarity > 1/10 then ("positive", min |polarity| 1)
    else if polarity < -(1/10) then ("negative", min |polarity| 1)
    else ("neutral", 1 - |polarity|)
  let pos_score := max 0 polarity
  let neg_score := max 0 (-polarity)
  let neu_score := 1 - pos_score - neg_score
  { sentiment := sc.1, confidence := sc.2,
    scores := [("positive", pos_score), ("neutral", neu_score), ("negative", neg_score)] }

/-! ### Verdict store (`data_manager.py`)

The two SQLite tables are modelled as lists of rows.  `store_analysis` takes the
current date string (`datetime.now().strftime('%Y-%m-%d')`) as an explicit `today`
parameter; a stored row's `created_at` is modelled directly by its date part, which
is what every query in the source compares (`date(created_at)`). -/

/-- One analyzed article as passed to `store_analysis`: the document fields plus the
flattened ensemble verdict.  The `.get(key, default)` defaulting of the source is
taken as already applied, and `json.dumps(article.get('details', {}))` is carried as
an opaque serialized string. -/
structure Article where
  title : String
  content : String
  description : String
  url : String
  source : String
  author : String
  published_at : String
  sentiment : String
  confidence : ℚ
  positive_score : ℚ
  negative_score : ℚ
  neutral_score : ℚ
  details : String
  deriving DecidableEq, Repr

/-- One row of the `analysis_results` table. -/
structure ResultRow where
  keywords : String
  title : String
  content : String
  description : String
  url : String
  source : String
  author : String
  published_at : String
  sentiment : String
  confidence : ℚ
  positive_score : ℚ
  negative_score : ℚ
  neutral_score : ℚ
  model_details : String
  created_at : String
  deriving DecidableEq, Repr

/-- One row of the `analysis_summary` table (unique on `(keywords, date)`). -/
structure SummaryRow where
  keywords : String
  date : String
  total_articles : ℕ
  positive_count : ℕ
  negative_count : ℕ
  neutral_count : ℕ
  avg_confidence : ℚ
  deriving DecidableEq, Repr

/-- The persisted state: the two tables of `data_manager.py`. -/
structure DB where
  results : List ResultRow
  summary : List SummaryRow
  deriving DecidableEq, Repr

/-- The `INSERT INTO analysis_results ... VALUES ...` of `store_analysis`
(lines 87-108). -/
def mkResultRow (keywords today : String) (a : Article) : ResultRow :=
  { keywords := keywords, title := a.title, content := a.content,
    description := a.description, url := a.url, source := a.source, author := a.author,
    published_at := a.published_at, sentiment := a.sentiment, confidence := a.confidence,
    positive_score := a.positive_score, negative_score := a.negative_score,
    neutral_score := a.neutral_score, model_details := a.details, created_at := today }

/-- The batch statistics of `_update_summary` (lines 126-130):
`len([a for a in articles if a.get('sentiment') == s])`. -/
def countSentiment (articles : List Article) (s : String) : ℕ :=
  (articles.filter (fun a => a.sentiment == s)).length

/-- The summary row `_update_summary` writes for `(keywords, today)`: statistics
computed over the current batch only, with the division-by-zero guard
`... if articles else 0` on the average confidence. -/
def mkSummaryRow (keywords today : String) (articles : List Article) : SummaryRow :=
  { keywords := keywords, date := today,
    total_articles := articles.length,
    positive_count := countSentiment articles "positive",
    negative_count := countSentiment articles "negative",
    neutral_count := countSentiment articles "neutral",
    avg_confidence :=
      if articles = [] then 0
      else (articles.map (fun a => a.confidence)).sum / (articles.length : ℚ) }

/-- `INSERT OR REPLACE INTO analysis_summary` on the unique key `(keywords, date)`
(lines 133-138): any conflicting row is deleted and the new row inserted. -/
def upsertSummary (rows : List SummaryRow) (r : SummaryRow) : List SummaryRow :=
  (rows.filter (fun x => !(x.keywords == r.keywords && x.date == r.date))) ++ [r]

/-- Shallow embedding of `store_analysis` (lines 79-119): inserts one result row per
article, then recomputes and upserts the daily summary from exactly this batch; the
boolean is the success return value. -/
def store_analysis (db : DB) (keywords : String) (articles : List Article)
    (today : String) : Bool × DB :=
  (true,
   { results := db.results ++ articles.map (mkResultRow keywords today),
     summary := upsertSummary db.summary (mkSummaryRow keywords today articles) })

/-- Lookup of the summary row stored under `(keywords, date)`. -/
def lookupSummary (rows : List SummaryRow) (k d : String) : Option SummaryRow :=
  rows.find? (fun r => r.keywords == k && r.date == d)

/-- Shallow embedding of `cleanup_old_data` (lines 371-390): delete the rows with
`date(created_at) < cutoff` from `analysis_results` and the rows with
`date < cutoff` from `analysis_summary` (the subsequent `VACUUM` has no effect on
table contents).  Date strings `YYYY-MM-DD` compare chronologically. -/
def cleanup_old_data (db : DB) (cutoff : String) : DB :=
  { results := db.results.filter (fun r => !decide (r.created_at < cutoff)),
    summary := db.summary.filter (fun r => !decide (r.date < cutoff)) }

/-- Concrete pre-existing summary row used to witness the replace semantics. -/
def c5OldRow : SummaryRow :=
  { keywords := "ai", date := "2025-01-01", total_articles := 7, positive_count := 7,
    negative_count := 0, neutral_count := 0, avg_confidence := 1 }

/-- Concrete one-article batch used to witness the replace semantics. -/
def c5Batch : List Article :=
  [{ title := "t", content := "c", description := "d", url := "u", source := "s",
     author := "a", published_at := "2025-01-01", sentiment := "negative",
     confidence := 1, positive_score := 0, negative_score := 1, neutral_score := 0,
     details := "{}" }]

/-! ### Text normalizer (`_preprocess_text`, sentiment_analyzer.py lines 103-130)

The four `re.sub` passes are modelled by scanners on `List Char` that mirror the
leftmost, greedy, non-overlapping matching of Python's `re` engine for the concrete
patterns of the source; character classes are modelled over their ASCII fragment. -/

/-- Python regex `\s` and `str.strip()` whitespace (ASCII fragment):
space, tab, newline, carriage return, vertical tab, form feed. -/
def isWS (c : Char) : Bool :=
  c == ' ' || c == '\t' || c == '\n' || c == '\r' || c == Char.ofNat 11 || c == Char.ofNat 12

/-- Python regex `\w` (ASCII fragment): alphanumeric or underscore. -/
def isWordChar (c : Char) : Bool := c.isAlphanum || c == '_'

/-- The character class of the URL regex
`http[s]?://(?:[a-zA-Z]|[0-9]|[$-_@.&+]|[!*\\(\\),]|(?:%[0-9a-fA-F][0-9a-fA-F]))+`:
letters, digits, the byte range `$`..`_`, and the listed punctuation (the `%hh`
alternative is subsumed by `%` lying in the `$`..`_` range). -/
def isURLChar (c : Char) : Bool :=
  c.isAlpha || c.isDigit || (decide ('$' ≤ c) && decide (c ≤ '_')) || c == '@' || c == '.'
    || c == '&' || c == '+' || c == '!' || c == '*' || c == '\\' || c == '(' || c == ')'
    || c == ',' || c == '%'

/-- The character class kept by `re.sub(r'[^\w\s.,!?;:-]', '', text)`. -/
def isKeptChar (c : Char) : Bool :=
  isWordChar c || isWS c || c == '.' || c == ',' || c == '!' || c == '?' || c == ';'
    || c == ':' || c == '-'

/-- After `http` / `https` has been read, the URL pattern requires `://` followed by
at least one URL character and then greedily consumes the maximal run of URL
characters; returns the unconsumed remainder on success. -/
def chompURLrest : List Char → Option (List Char)
  | ':' :: '/' :: '/' :: c :: cs =>
    if isURLChar c then some (cs.dropWhile isURLChar) else none
  | _ => none

/-- Attempt to match the URL regex at the head of the list.  The `https` branch is
tried first, mirroring the greedy `[s]?`; if the input starts `https` but the rest
does not continue `://…`, backtracking to the s-less branch cannot succeed either
(the next char would have to be `:` but is `s`), so the match just fails. -/
def matchURL : List Char → Option (List Char)
  | 'h' :: 't' :: 't' :: 'p' :: 's' :: rest => chompURLrest rest
  | 'h' :: 't' :: 't' :: 'p' :: rest => chompURLrest rest
  | _ => none

/-- The pass `re.sub(r'http[s]?://(?:…)+', '', text)`: scan left to right, delete
each URL match, resume after it.  The `fuel` argument is only a structural-recursion
device; a successful match strictly shortens the input, so with `fuel = l.length`
(as `urlSub` passes) the fuel never runs out. -/
def urlSubAux : ℕ → List Char → List Char
  | 0, l => l
  | _ + 1, [] => []
  | fuel + 1, c :: cs =>
    match matchURL (c :: cs) with
    | some rest => urlSubAux fuel rest
    | none => c :: urlSubAux fuel cs

def urlSub (l : List Char) : List Char := urlSubAux l.length l

/-- Does `\S+@\S+` match at the start of a non-space run `c :: body`?  It does iff
`body` contains an `@` with at least one further character of the run after it
(the `@` must have a non-space character before and after it). -/
def emailRunBody : List Char → Bool
  | [] => false
  | [_] => false
  | c :: rest => if c = '@' then true else emailRunBody rest

/-- The pass `re.sub(r'\S+@\S+', '', text)`: a successful match starting at a
non-space character greedily spans the whole maximal non-space run (both `\S+` are
greedy and `@` is itself `\S`), so the scanner deletes the entire run; if no match
starts here the engine advances one character. -/
def emailSubAux : ℕ → List Char → List Char
  | 0, l => l
  | _ + 1, [] => []
  | fuel + 1, c :: cs =>
    if isWS c then c :: emailSubAux fuel cs
    else if emailRunBody (cs.takeWhile (fun x => !isWS x)) then
      emailSubAux fuel (cs.dropWhile (fun x => !isWS x))
    else c :: emailSubAux fuel cs

def emailSub (l : List Char) : List Char := emailSubAux l.length l

/-- The pass `re.sub(r'\s+', ' ', text)`: every maximal whitespace run becomes a
single space.  The boolean state records whether the scanner is inside a whitespace
run whose single replacement space has already been emitted. -/
def collapseAux : Bool → List Char → List Char
  | _, [] => []
  | true, c :: cs =>
    if isWS c then collapseAux true cs else c :: collapseAux false cs
  | false, c :: cs =>
    if isWS c then ' ' :: collapseAux true cs else c :: collapseAux false cs

def collapseWS (l : List Char) : List Char := collapseAux false l

/-- The pass `re.sub(r'[^\w\s.,!?;:-]', '', text)`. -/
def filterChars (l : List Char) : List Char := l.filter isKeptChar

/-- Python `text.split('.')`. -/
def splitOnDot : List Char → List (List Char)
  | [] => [[]]
  | c :: rest =>
    if c = '.' then [] :: splitOnDot rest
    else
      match splitOnDot rest with
      | [] => [[c]]
      | h :: t => (c :: h) :: t

/-- The sentence-accumulation loop of `_preprocess_text` (lines 121-127):
`if len(truncated + sentence) < max_length: truncated += sentence + "." else: break`. -/
def truncLoop : List (List Char) → List Char → List Char
  | [], acc => acc
  | s :: rest, acc =>
    if acc.length + s.length < 512 then truncLoop rest (acc ++ s ++ ['.'])
    else acc

/-- The length-limiting step of `_preprocess_text` (lines 117-128): texts longer
than 512 characters are cut at sentence boundaries, falling back to
`text[:512]` when no sentence fits (`truncated` empty / falsy). -/
def truncateStep (l : List Char) : List Char :=
  if 512 < l.length then
    (if truncLoop (splitOnDot l) [] = [] then l.take 512 else truncLoop (splitOnDot l) [])
  else l

/-- Python `str.strip()`. -/
def trimWS (l : List Char) : List Char :=
  ((l.dropWhile isWS).reverse.dropWhile isWS).reverse

/-- Shallow embedding of `_preprocess_text` on character lists: URL removal, email
removal, whitespace collapsing, special-character removal, truncation, strip —
in the source's order. -/
def normalizeL (l : List Char) : List Char :=
  trimWS (truncateStep (filterChars (collapseWS (emailSub (urlSub l)))))

/-- `_preprocess_text` on strings. -/
def preprocess_text (s : String) : String := ⟨normalizeL s.data⟩

/-! ### Top-level `analyze` (sentiment_analyzer.py lines 60-101) -/

/-- The `details` field of an analysis result: either the fixed string tag
`'Text too short for analysis'` or the dict of model predictions and lengths. -/
inductive Details where
  | tooShort : Details
  | ensemble (model_predictions : List (String × Prediction))
      (text_length processed_length : ℕ) (models_used : List String) : Details
  deriving DecidableEq, Repr

/-- The result dict of `analyze`, with the `scores` sub-dict flattened. -/
structure AnalyzeResult where
  sentiment : String
  confidence : ℚ
  positive : ℚ
  negative : ℚ
  neutral : ℚ
  details : Details
  deriving DecidableEq, Repr

/-- Python `round(x, 3)` (round half to even), modelled over exact rationals. -/
def round3 (q : ℚ) : ℚ :=
  let x := q * 1000
  let f := ⌊x⌋
  let r := x - (f : ℚ)
  let n : ℤ :=
    if r > 1/2 then f + 1
    else if r < 1/2 then f
    else (if f % 2 = 0 then f else f + 1)
  (n : ℚ) / 1000

/-- The fixed verdict returned for too-short input (lines 70-76). -/
def tooShortVerdict : AnalyzeResult :=
  ⟨"neutral", 1/2, 33/100, 33/100, 34/100, Details.tooShort⟩

/-- Shallow embedding of `analyze`, parameterized by the available classifiers:
`getPreds` stands for `_get_ensemble_predictions`, i.e. whatever subset of adapters
is loaded, applied to the cleaned text.  The guard is the source's
`if not text or len(text.strip()) < 10` — on the raw text.  A `KeyError` escaping
`_ensemble_combine` propagates (`none`). -/
def analyze (getPreds : String → List (String × Prediction)) (text : String) :
    Option AnalyzeResult :=
  if text.data = [] ∨ (trimWS text.data).length < 10 then
    some tooShortVerdict
  else
    let cleaned := preprocess_text text
    let preds := getPreds cleaned
    match ensembleCombine preds with
    | none => none
    | some (s, conf, c) =>
      some ⟨s, round3 conf, round3 c.positive, round3 c.negative, round3 c.neutral,
            Details.ensemble preds text.length cleaned.length (preds.map Prod.fst)⟩

/-- Concrete input whose normalized form is empty (shorter than 10 characters) but
whose raw stripped length is 21, so `analyze` does not short-circuit. -/
def c2BadText : String := "http://aaaaaaaaaa.com"

/-! ### Characterization of the truncation step (claim C7) -/

/-- Greatest index `d < bound` with `l[d] = '.'`, if any. -/
def lastDotBefore : List Char → ℕ → Option ℕ
  | _, 0 => none
  | [], _ + 1 => none
  | c :: cs, n + 1 =>
    match lastDotBefore cs n with
    | some d => some (d + 1)
    | none => if c = '.' then some 0 else none

/-- Truncation as the spec words it: cut just after the last sentence boundary `.`
lying within the 512-character limit; if no boundary fits, hard-truncate at exactly
512 characters.  (Comparison definition for the refinement claim C7.) -/
def cutSpecTruncate (l : List Char) : List Char :=
  match lastDotBefore l 512 with
  | some d => l.take (d + 1)
  | none => l.take 512

/-- Concrete over-length input used to witness the truncation characterization. -/
def c7WitnessList : List Char := List.replicate 20 'a' ++ '.' :: List.replicate 600 'b'

/-! ### Theorems -/

/-! #### Basic lemmas about the combiner -/

theorem modelWeight_ge (name : String) : 1/10 ≤ modelWeight name := by
  unfold modelWeight
  split_ifs <;> norm_num

theorem modelWeight_pos (name : String) : 0 < modelWeight name :=
  lt_of_lt_of_le (by norm_num) (modelWeight_ge name)

theorem totalWeightOf_pos {preds : List (String × Prediction)} (h : preds ≠ []) :
    0 < totalWeightOf preds := by
  refine List.sum_pos _ (fun w hw => ?_) (by simpa using h)
  obtain ⟨p, _, rfl⟩ := List.mem_map.mp hw
  exact modelWeight_pos _

theorem classSum_cons (k : String) (v : ℚ) (rest : List (String × ℚ)) (cls : String) :
    classSum ((k, v) :: rest) cls = (if k = cls then v else 0) + classSum rest cls := by
  by_cases h : k = cls <;> simp [classSum, List.filter_cons, h]

theorem foldScores_eq (w : ℚ) (scores : List (String × ℚ)) :
    ∀ c : Combined,
      (∀ kv ∈ scores, kv.1 = "positive" ∨ kv.1 = "negative" ∨ kv.1 = "neutral") →
      foldScores c w scores =
        some ⟨c.positive + w * classSum scores "positive",
              c.negative + w * classSum scores "negative",
              c.neutral + w * classSum scores "neutral"⟩ := by
  induction scores with
  | nil => intro c _; simp [foldScores, classSum]
  | cons kv rest ih =>
    intro c hvalid
    obtain ⟨k, v⟩ := kv
    have hk := hvalid (k, v) (List.mem_cons_self _ _)
    have hrest : ∀ kv ∈ rest, kv.1 = "positive" ∨ kv.1 = "negative" ∨ kv.1 = "neutral" :=
      fun kv hkv => hvalid kv (List.mem_cons_of_mem _ hkv)
    rcases hk with hk | hk | hk <;>
      · simp only at hk
        subst hk
        simp only [foldScores, addScore, String.reduceEq, reduceIte]
        rw [ih _ hrest]
        simp only [classSum_cons, Option.some.injEq, Combined.mk.injEq, String.reduceEq,
          reduceIte]
        refine ⟨by ring, by ring, by ring⟩

theorem combineAll_eq (preds : List (String × Prediction)) :
    ∀ acc : Combined × ℚ, validKeys preds →
      combineAll preds acc =
        some (⟨acc.1.positive + weightedClassSum preds "positive",
               acc.1.negative + weightedClassSum preds "negative",
               acc.1.neutral + weightedClassSum preds "neutral"⟩,
              acc.2 + totalWeightOf preds) := by
  induction preds with
  | nil => intro acc _; simp [combineAll, weightedClassSum, totalWeightOf]
  | cons p rest ih =>
    intro acc hvalid
    have hp : ∀ kv ∈ p.2.scores, kv.1 = "positive" ∨ kv.1 = "negative" ∨ kv.1 = "neutral" :=
      hvalid p (List.mem_cons_self _ _)
    have hrest : validKeys rest := fun q hq => hvalid q (List.mem_cons_of_mem _ hq)
    rw [combineAll, combineStep, foldScores_eq _ _ _ hp]
    simp only [Option.map_some']
    rw [ih _ hrest]
    simp only [Option.some.injEq, Prod.mk.injEq, Combined.mk.injEq, weightedClassSum,
      totalWeightOf, List.map_cons, List.sum_cons]
    refine ⟨⟨by ring, by ring, by ring⟩, by ring⟩

theorem getScore_pyMax3_le (c : Combined) :
    getScore c (pyMax3 c) ≤ max (max c.positive c.negative) c.neutral := by
  unfold pyMax3
  split_ifs with h1 h2 h3 <;> simp only [getScore, String.reduceEq, reduceIte]
  · exact le_max_right _ _
  · exact le_trans (le_max_right _ _) (le_max_left _ _)
  · exact le_max_right _ _
  · exact le_trans (le_max_left _ _) (le_max_left _ _)

theorem neutral_le_getScore_pyMax3 (c : Combined) :
    c.neutral ≤ getScore c (pyMax3 c) := by
  unfold pyMax3
  split_ifs with h1 h2 h3 <;> simp only [getScore, String.reduceEq, reduceIte]
  · exact le_refl _
  · exact le_of_not_lt h2
  · exact le_refl _
  · exact le_of_not_lt h3

/-- Helper: full characterization of `_ensemble_combine` on a non-empty prediction map
with well-formed score keys. -/
theorem ensembleCombine_nonempty (preds : List (String × Prediction))
    (hne : preds ≠ []) (hkeys : validKeys preds) :
    ensembleCombine preds =
      (let c : Combined :=
        ⟨weightedClassSum preds "positive" / totalWeightOf preds,
         weightedClassSum preds "negative" / totalWeightOf preds,
         weightedClassSum preds "neutral" / totalWeightOf preds⟩
       if getScore c (pyMax3 c) < CONFIDENCE_THRESHOLD then
         some ("neutral", max c.neutral (1/2), c)
       else some (pyMax3 c, getScore c (pyMax3 c), c)) := by
  unfold ensembleCombine
  rw [if_neg hne, combineAll_eq _ _ hkeys]
  have hW : (0 : ℚ) < totalWeightOf preds := totalWeightOf_pos hne
  simp only [zero_add, if_pos hW]

theorem ensembleCombine_third (preds : List (String × Prediction))
    (s : String) (conf : ℚ) (c : Combined) (hne : preds ≠ []) (hkeys : validKeys preds)
    (hcomb : ensembleCombine preds = some (s, conf, c)) :
    c = ⟨weightedClassSum preds "positive" / totalWeightOf preds,
         weightedClassSum preds "negative" / totalWeightOf preds,
         weightedClassSum preds "neutral" / totalWeightOf preds⟩ := by
  rw [ensembleCombine_nonempty preds hne hkeys] at hcomb
  simp only at hcomb
  split_ifs at hcomb
  · obtain ⟨-, -, hc⟩ : _ ∧ _ ∧ _ = c := by simpa using hcomb
    exact hc.symm
  · obtain ⟨-, -, hc⟩ : _ ∧ _ ∧ _ = c := by simpa using hcomb
    exact hc.symm

/-- C1 — if the maximum combined class score is below the 0.6 threshold, the combiner
forces the verdict to `neutral` with confidence `max(combined neutral score, 0.5)`,
whatever the raw argmax was.  (`_ensemble_combine` lines 295-305;
`Config.CONFIDENCE_THRESHOLD` config.py line 35.) -/
theorem low_confidence_forces_neutral (preds : List (String × Prediction))
    (s : String) (conf : ℚ) (c : Combined) (hne : preds ≠ [])
    (hcomb : ensembleCombine preds = some (s, conf, c))
    (hmax : max (max c.positive c.negative) c.neutral < CONFIDENCE_THRESHOLD) :
    s = "neutral" ∧ conf = max c.neutral (1/2) := by
  unfold ensembleCombine at hcomb
  rw [if_neg hne] at hcomb
  cases hfold : combineAll preds (⟨0, 0, 0⟩, 0) with
  | none => rw [hfold] at hcomb; exact absurd hcomb (by simp)
  | some acctw =>
    obtain ⟨acc, tw⟩ := acctw
    rw [hfold] at hcomb
    simp only at hcomb
    by_cases hθ :
        getScore (if tw > 0 then
            (⟨acc.positive / tw, acc.negative / tw, acc.neutral / tw⟩ : Combined)
          else acc)
          (pyMax3 (if tw > 0 then
            (⟨acc.positive / tw, acc.negative / tw, acc.neutral / tw⟩ : Combined)
          else acc)) < CONFIDENCE_THRESHOLD
    · rw [if_pos hθ] at hcomb
      obtain ⟨hs, hconf, hc⟩ : s = "neutral" ∧ conf = _ ∧ _ = c := by
        simpa [eq_comm] using hcomb
      subst hc
      refine ⟨hs, ?_⟩
      rw [hconf]
      norm_num
    · rw [if_neg hθ] at hcomb
      obtain ⟨hs, hconf, hc⟩ : s = _ ∧ conf = _ ∧ _ = c := by
        simpa [eq_comm] using hcomb
      subst hc
      exact absurd (lt_of_le_of_lt (getScore_pyMax3_le _) hmax) hθ

theorem low_confidence_forces_neutral_witness :
    ("neutral" : String) = "neutral" ∧
      (1/2 : ℚ) = max ((⟨1/2, 1/4, 1/4⟩ : Combined).neutral) (1/2) := by
  have hpos : weightedClassSum c1WitnessPreds "positive" / totalWeightOf c1WitnessPreds
      = 1/2 := by
    simp only [weightedClassSum, totalWeightOf, classSum, modelWeight, c1WitnessPreds,
      List.map_cons, List.map_nil, List.filter_cons, List.filter_nil, List.sum_cons,
      List.sum_nil, String.reduceEq, String.reduceBEq, reduceIte]
    norm_num
  have hneg : weightedClassSum c1WitnessPreds "negative" / totalWeightOf c1WitnessPreds
      = 1/4 := by
    simp only [weightedClassSum, totalWeightOf, classSum, modelWeight, c1WitnessPreds,
      List.map_cons, List.map_nil, List.filter_cons, List.filter_nil, List.sum_cons,
      List.sum_nil, String.reduceEq, String.reduceBEq, reduceIte]
    norm_num
  have hneu : weightedClassSum c1WitnessPreds "neutral" / totalWeightOf c1WitnessPreds
      = 1/4 := by
    simp only [weightedClassSum, totalWeightOf, classSum, modelWeight, c1WitnessPreds,
      List.map_cons, List.map_nil, List.filter_cons, List.filter_nil, List.sum_cons,
      List.sum_nil, String.reduceEq, String.reduceBEq, reduceIte]
    norm_num
  have hcomb : ensembleCombine c1WitnessPreds = some ("neutral", 1/2, ⟨1/2, 1/4, 1/4⟩) := by
    rw [ensembleCombine_nonempty _ (by decide) (by decide)]
    simp only [hpos, hneg, hneu]
    have hpy : pyMax3 ⟨1/2, 1/4, 1/4⟩ = "positive" := by unfold pyMax3; norm_num
    rw [hpy]
    have hgs : getScore ⟨1/2, 1/4, 1/4⟩ "positive" = 1/2 := by simp [getScore]
    rw [hgs, if_pos (by norm_num [CONFIDENCE_THRESHOLD] : (1/2 : ℚ) < CONFIDENCE_THRESHOLD)]
    norm_num [max_def]
  exact low_confidence_forces_neutral c1WitnessPreds "neutral" (1/2) ⟨1/2, 1/4, 1/4⟩
    (by decide) hcomb (by norm_num [CONFIDENCE_THRESHOLD, max_def])

/-- C3 — each combined class score is the weighted mean over the models actually
present (weighted by `weights.get(name, 0.1)`, renormalized by the total weight of
the present models only), and an unrecognized model name gets default weight 0.1.
(`_ensemble_combine` lines 270-293.) -/
theorem combined_scores_weighted_mean (preds : List (String × Prediction))
    (hne : preds ≠ []) (hkeys : validKeys preds) :
    combinedScoresOf preds =
      some ⟨weightedClassSum preds "positive" / totalWeightOf preds,
            weightedClassSum preds "negative" / totalWeightOf preds,
            weightedClassSum preds "neutral" / totalWeightOf preds⟩ ∧
    (∀ name : String, name ∉ (["roberta", "finbert", "vader", "textblob"] : List String) →
      modelWeight name = 1/10) := by
  constructor
  · unfold combinedScoresOf
    rw [ensembleCombine_nonempty preds hne hkeys]
    simp only
    split_ifs <;> rfl
  · intro name hname
    simp only [List.mem_cons, List.mem_singleton, not_or] at hname
    obtain ⟨h1, h2, h3, h4, _⟩ := hname
    simp [modelWeight, h1, h2, h3, h4]

theorem combined_scores_weighted_mean_witness :
    combinedScoresOf c3WitnessPreds =
      some ⟨weightedClassSum c3WitnessPreds "positive" / totalWeightOf c3WitnessPreds,
            weightedClassSum c3WitnessPreds "negative" / totalWeightOf c3WitnessPreds,
            weightedClassSum c3WitnessPreds "neutral" / totalWeightOf c3WitnessPreds⟩ ∧
      modelWeight "mystery" = 1/10 :=
  ⟨(combined_scores_weighted_mean c3WitnessPreds (by decide) (by decide)).1,
   (combined_scores_weighted_mean c3WitnessPreds (by decide) (by decide)).2 "mystery"
     (by decide)⟩

/-- C9 — the combiner's argmax is deterministic and breaks exact ties by the fixed
iteration order `positive, negative, neutral` of the combined-scores dict: a tied
class earlier in that order wins; whenever the threshold override does not fire the
returned sentiment is exactly this argmax; and the combiner is a pure function, so
two runs on the same predictions agree.  (`_ensemble_combine` lines 279-297.) -/
theorem tie_break_deterministic :
    (∀ c : Combined,
      (c.negative ≤ c.positive → c.neutral ≤ c.positive → pyMax3 c = "positive") ∧
      (c.positive < c.negative → c.neutral ≤ c.negative → pyMax3 c = "negative") ∧
      (c.positive < c.neutral → c.negative < c.neutral → pyMax3 c = "neutral")) ∧
    (∀ preds s conf c, ensembleCombine preds = some (s, conf, c) →
      CONFIDENCE_THRESHOLD ≤ conf → s = pyMax3 c) ∧
    (∀ preds, ensembleCombine preds = ensembleCombine preds) := by
  refine ⟨fun c => ⟨?_, ?_, ?_⟩, ?_, fun _ => rfl⟩
  · intro h1 h2
    unfold pyMax3
    rw [if_neg (not_lt.mpr h1), if_neg (not_lt.mpr h2)]
  · intro h1 h2
    unfold pyMax3
    rw [if_pos h1, if_neg (not_lt.mpr h2)]
  · intro h1 h2
    unfold pyMax3
    by_cases hng : c.negative > c.positive
    · rw [if_pos hng, if_pos h2]
    · rw [if_neg hng, if_pos h1]
  · intro preds s conf c hcomb hconf
    unfold ensembleCombine at hcomb
    by_cases hne : preds = []
    · rw [if_pos hne] at hcomb
      obtain ⟨hs, hconf', hc⟩ : "neutral" = s ∧ (1/2 : ℚ) = conf ∧
          (⟨33/100, 33/100, 34/100⟩ : Combined) = c := by simpa using hcomb
      subst hc
      rw [← hs]
      unfold pyMax3
      norm_num
    · rw [if_neg hne] at hcomb
      cases hfold : combineAll preds (⟨0, 0, 0⟩, 0) with
      | none => rw [hfold] at hcomb; exact absurd hcomb (by simp)
      | some acctw =>
        obtain ⟨acc, tw⟩ := acctw
        rw [hfold] at hcomb
        simp only at hcomb
        by_cases hθ :
            getScore (if tw > 0 then
                (⟨acc.positive / tw, acc.negative / tw, acc.neutral / tw⟩ : Combined)
              else acc)
              (pyMax3 (if tw > 0 then
                (⟨acc.positive / tw, acc.negative / tw, acc.neutral / tw⟩ : Combined)
              else acc)) < CONFIDENCE_THRESHOLD
        · rw [if_pos hθ] at hcomb
          obtain ⟨hs, hconf', hc⟩ : s = "neutral" ∧ conf = _ ∧ _ = c := by
            simpa [eq_comm] using hcomb
          subst hc
          have hneu := neutral_le_getScore_pyMax3
            (if tw > 0 then
                (⟨acc.positive / tw, acc.negative / tw, acc.neutral / tw⟩ : Combined)
              else acc)
          have : conf < CONFIDENCE_THRESHOLD := by
            rw [hconf']
            exact max_lt (lt_of_le_of_lt hneu hθ) (by norm_num [CONFIDENCE_THRESHOLD])
          exact absurd hconf (not_le.mpr this)
        · rw [if_neg hθ] at hcomb
          obtain ⟨hs, hconf', hc⟩ : s = _ ∧ conf = _ ∧ _ = c := by
            simpa [eq_comm] using hcomb
          subst hc
          exact hs

theorem tie_break_deterministic_witness :
    pyMax3 ⟨1/2, 1/2, 1/2⟩ = "positive" ∧ pyMax3 ⟨1/4, 1/2, 1/2⟩ = "negative" :=
  ⟨(tie_break_deterministic.1 ⟨1/2, 1/2, 1/2⟩).1 (by norm_num) (by norm_num),
   (tie_break_deterministic.1 ⟨1/4, 1/2, 1/2⟩).2.1 (by norm_num) (by norm_num)⟩

theorem classSum_three (scores : List (String × ℚ))
    (h : ∀ kv ∈ scores, kv.1 = "positive" ∨ kv.1 = "negative" ∨ kv.1 = "neutral") :
    classSum scores "positive" + classSum scores "negative" + classSum scores "neutral"
      = (scores.map (fun kv => kv.2)).sum := by
  induction scores with
  | nil => simp [classSum]
  | cons kv rest ih =>
    obtain ⟨k, v⟩ := kv
    have hk := h (k, v) (List.mem_cons_self _ _)
    have hrest := fun kv hkv => h kv (List.mem_cons_of_mem _ hkv)
    have ih' := ih hrest
    rcases hk with hk | hk | hk <;>
      · simp only at hk
        subst hk
        simp only [classSum_cons, String.reduceEq, reduceIte, List.map_cons, List.sum_cons]
        linarith [ih']

theorem weightedClassSum_three (preds : List (String × Prediction))
    (hkeys : validKeys preds) :
    weightedClassSum preds "positive" + weightedClassSum preds "negative"
        + weightedClassSum preds "neutral"
      = (preds.map (fun p => modelWeight p.1 * sumScores p.2)).sum := by
  induction preds with
  | nil => simp [weightedClassSum]
  | cons p rest ih =>
    have hp := hkeys p (List.mem_cons_self _ _)
    have hrest : validKeys rest := fun q hq => hkeys q (List.mem_cons_of_mem _ hq)
    have h3 := classSum_three p.2.scores hp
    have ih' := ih hrest
    simp only [weightedClassSum, List.map_cons, List.sum_cons, sumScores] at *
    linear_combination modelWeight p.1 * h3 + ih'

theorem weighted_sum_tolerance (preds : List (String × Prediction))
    (h : ∀ p ∈ preds, |sumScores p.2 - 1| ≤ 1/100) :
    |(preds.map (fun p => modelWeight p.1 * sumScores p.2)).sum - totalWeightOf preds|
      ≤ (1/100) * totalWeightOf preds := by
  induction preds with
  | nil => simp [totalWeightOf]
  | cons p rest ih =>
    have hp := h p (List.mem_cons_self _ _)
    have ih' := ih (fun q hq => h q (List.mem_cons_of_mem _ hq))
    simp only [List.map_cons, List.sum_cons, totalWeightOf] at *
    set w := modelWeight p.1 with hw
    set S := sumScores p.2
    set T := (rest.map (fun p => modelWeight p.1 * sumScores p.2)).sum
    set W := (rest.map (fun p => modelWeight p.1)).sum
    have hrw : w * S + T - (w + W) = w * (S - 1) + (T - W) := by ring
    rw [hrw]
    have habs : |w * (S - 1) + (T - W)| ≤ |w * (S - 1)| + |T - W| := abs_add _ _
    have hwnn : (0 : ℚ) ≤ w := le_of_lt (modelWeight_pos p.1)
    have h1 : |w * (S - 1)| = w * |S - 1| := by
      rw [abs_mul, abs_of_nonneg hwnn]
    have h2 : w * |S - 1| ≤ w * (1/100) := mul_le_mul_of_nonneg_left hp hwnn
    have : |w * (S - 1)| + |T - W| ≤ w * (1/100) + (1/100) * W := by
      rw [h1]; exact add_le_add h2 ih'
    calc |w * (S - 1) + (T - W)| ≤ |w * (S - 1)| + |T - W| := habs
      _ ≤ w * (1/100) + (1/100) * W := this
      _ = (1/100) * (w + W) := by ring

/-- C4 — score distributions sum to 1 within the ±0.01 tolerance: the VADER
normalizer's renormalized scores (for a native score triple with positive mass),
the TextBlob normalizer's derived scores, and the combined scores returned by
`_ensemble_combine` whenever each input model's scores are within tolerance.
(`_normalize_vader_output` lines 222-228, `_normalize_textblob_output` lines 248-257,
`_ensemble_combine` lines 279-293.) -/
theorem scores_sum_within_tolerance :
    (∀ compound pos neu neg : ℚ, 0 < pos + neu + neg →
      |sumScores (normalize_vader_output compound pos neu neg) - 1| ≤ 1/100) ∧
    (∀ polarity : ℚ, |sumScores (normalize_textblob_output polarity) - 1| ≤ 1/100) ∧
    (∀ preds s conf c, validKeys preds →
      (∀ p ∈ preds, |sumScores p.2 - 1| ≤ 1/100) →
      ensembleCombine preds = some (s, conf, c) →
      |c.positive + c.negative + c.neutral - 1| ≤ 1/100) := by
  refine ⟨?_, ?_, ?_⟩
  · intro compound pos neu neg htot
    have hsum : sumScores (normalize_vader_output compound pos neu neg) = 1 := by
      simp only [normalize_vader_output, sumScores, List.map_cons, List.map_nil,
        List.sum_cons, List.sum_nil, if_pos htot]
      field_simp
      ring
    rw [hsum]
    norm_num
  · intro polarity
    have hsum : sumScores (normalize_textblob_output polarity) = 1 := by
      simp only [normalize_textblob_output, sumScores, List.map_cons, List.map_nil,
        List.sum_cons, List.sum_nil]
      ring
    rw [hsum]
    norm_num
  · intro preds s conf c hkeys htol hcomb
    by_cases hne : preds = []
    · subst hne
      have : c = ⟨33/100, 33/100, 34/100⟩ := by
        simp only [ensembleCombine, if_true, reduceIte, Option.some.injEq,
          Prod.mk.injEq] at hcomb
        exact hcomb.2.2.symm
      subst this
      norm_num
    · have hc := ensembleCombine_third preds s conf c hne hkeys hcomb
      subst hc
      have hW : (0 : ℚ) < totalWeightOf preds := totalWeightOf_pos hne
      have h3 := weightedClassSum_three preds hkeys
      have hb := weighted_sum_tolerance preds htol
      rw [← h3] at hb
      set P := weightedClassSum preds "positive"
      set N := weightedClassSum preds "negative"
      set U := weightedClassSum preds "neutral"
      set W := totalWeightOf preds
      simp only
      have hdiv : P / W + N / W + U / W - 1 = (P + N + U - W) / W := by
        field_simp
      rw [hdiv, abs_div, abs_of_pos hW, div_le_iff₀ hW]
      calc |P + N + U - W| ≤ (1/100) * W := hb
        _ = 1/100 * W := by ring

theorem scores_sum_within_tolerance_witness :
    |sumScores (normalize_vader_output (1/2) (1/4) (1/2) (1/4)) - 1| ≤ 1/100 ∧
    |sumScores (normalize_textblob_output (1/2)) - 1| ≤ 1/100 ∧
    |((⟨1/2, 1/4, 1/4⟩ : Combined).positive + (⟨1/2, 1/4, 1/4⟩ : Combined).negative
        + (⟨1/2, 1/4, 1/4⟩ : Combined).neutral - 1)| ≤ 1/100 := by
  refine ⟨scores_sum_within_tolerance.1 (1/2) (1/4) (1/2) (1/4) (by norm_num),
          scores_sum_within_tolerance.2.1 (1/2),
          scores_sum_within_tolerance.2.2 c1WitnessPreds "neutral" (1/2) ⟨1/2, 1/4, 1/4⟩
            (by decide) ?_ ?_⟩
  · intro p hp
    have : p = ("vader",
        ⟨"positive", 1/2, [("positive", 1/2), ("neutral", 1/4), ("negative", 1/4)]⟩) := by
      simpa [c1WitnessPreds] using hp
    subst this
    simp only [sumScores, List.map_cons, List.map_nil, List.sum_cons, List.sum_nil]
    norm_num
  · have hpos : weightedClassSum c1WitnessPreds "positive" / totalWeightOf c1WitnessPreds
        = 1/2 := by
      simp only [weightedClassSum, totalWeightOf, classSum, modelWeight, c1WitnessPreds,
        List.map_cons, List.map_nil, List.filter_cons, List.filter_nil, List.sum_cons,
        List.sum_nil, String.reduceEq, String.reduceBEq, reduceIte]
      norm_num
    have hneg : weightedClassSum c1WitnessPreds "negative" / totalWeightOf c1WitnessPreds
        = 1/4 := by
      simp only [weightedClassSum, totalWeightOf, classSum, modelWeight, c1WitnessPreds,
        List.map_cons, List.map_nil, List.filter_cons, List.filter_nil, List.sum_cons,
        List.sum_nil, String.reduceEq, String.reduceBEq, reduceIte]
      norm_num
    have hneu : weightedClassSum c1WitnessPreds "neutral" / totalWeightOf c1WitnessPreds
        = 1/4 := by
      simp only [weightedClassSum, totalWeightOf, classSum, modelWeight, c1WitnessPreds,
        List.map_cons, List.map_nil, List.filter_cons, List.filter_nil, List.sum_cons,
        List.sum_nil, String.reduceEq, String.reduceBEq, reduceIte]
      norm_num
    rw [ensembleCombine_nonempty _ (by decide) (by decide)]
    simp only [hpos, hneg, hneu]
    have hpy : pyMax3 ⟨1/2, 1/4, 1/4⟩ = "positive" := by unfold pyMax3; norm_num
    rw [hpy]
    have hgs : getScore ⟨1/2, 1/4, 1/4⟩ "positive" = 1/2 := by simp [getScore]
    rw [hgs, if_pos (by norm_num [CONFIDENCE_THRESHOLD] : (1/2 : ℚ) < CONFIDENCE_THRESHOLD)]
    norm_num [max_def]

theorem find?_append_of_forall_false {α : Type} (p : α → Bool) (l1 l2 : List α)
    (h : ∀ x ∈ l1, p x = false) :
    List.find? p (l1 ++ l2) = List.find? p l2 := by
  induction l1 with
  | nil => rfl
  | cons a l ih =>
    rw [List.cons_append, List.find?_cons_of_neg _ (by simp [h a (List.mem_cons_self _ _)])]
    exact ih (fun x hx => h x (List.mem_cons_of_mem _ hx))

theorem lookupSummary_upsert (rows : List SummaryRow) (r : SummaryRow) :
    lookupSummary (upsertSummary rows r) r.keywords r.date = some r := by
  unfold lookupSummary upsertSummary
  rw [find?_append_of_forall_false]
  · simp [List.find?]
  · intro x hx
    have h2 := (List.mem_filter.mp hx).2
    simp only [Bool.not_eq_true', Bool.and_eq_false_iff, beq_eq_false_iff_ne, ne_eq] at h2
    simp only [Bool.and_eq_false_iff, beq_eq_false_iff_ne, ne_eq]
    tauto

/-- C5 — when a summary row for `(topic, today)` already exists, storing a batch
replaces it: the row found afterwards is the one recomputed from exactly the batch
just written, and is independent of whatever the store previously held (not
incremented or merged).  (`store_analysis` lines 79-119, `_update_summary`
lines 121-138.) -/
theorem summary_replaced_not_merged (db : DB) (old : SummaryRow)
    (topic today : String) (arts : List Article)
    (hold : old ∈ db.summary) (hk : old.keywords = topic) (hd : old.date = today) :
    lookupSummary (store_analysis db topic arts today).2.summary topic today
        = some (mkSummaryRow topic today arts) ∧
    ∀ db' : DB,
      lookupSummary (store_analysis db' topic arts today).2.summary topic today
        = lookupSummary (store_analysis db topic arts today).2.summary topic today := by
  have key : ∀ d : DB,
      lookupSummary (store_analysis d topic arts today).2.summary topic today
        = some (mkSummaryRow topic today arts) := by
    intro d
    have h := lookupSummary_upsert d.summary (mkSummaryRow topic today arts)
    simpa [store_analysis, mkSummaryRow] using h
  exact ⟨key db, fun db' => (key db').trans (key db).symm⟩

theorem summary_replaced_not_merged_witness :
    lookupSummary
        (store_analysis ⟨[], [c5OldRow]⟩ "ai" c5Batch "2025-01-01").2.summary
        "ai" "2025-01-01"
      = some (mkSummaryRow "ai" "2025-01-01" c5Batch) :=
  (summary_replaced_not_merged ⟨[], [c5OldRow]⟩ c5OldRow "ai" "2025-01-01" c5Batch
    (List.mem_singleton.mpr rfl) rfl rfl).1

/-- C10 — storing an empty batch succeeds, inserts no result row, and still upserts
the `(topic, today)` summary row with all counts zero and average confidence zero
(the division-by-zero guard), overwriting any previous summary for that key.
(`store_analysis` lines 79-119, `_update_summary` lines 121-138.) -/
theorem store_empty_batch (db : DB) (topic today : String) :
    (store_analysis db topic [] today).1 = true ∧
    (store_analysis db topic [] today).2.results = db.results ∧
    lookupSummary (store_analysis db topic [] today).2.summary topic today
      = some ⟨topic, today, 0, 0, 0, 0, 0⟩ := by
  refine ⟨rfl, by simp [store_analysis], ?_⟩
  have h := lookupSummary_upsert db.summary (mkSummaryRow topic today [])
  have hrow : mkSummaryRow topic today [] = ⟨topic, today, 0, 0, 0, 0, 0⟩ := by
    simp [mkSummaryRow, countSentiment]
  rw [hrow] at h
  simpa [store_analysis, hrow] using h

/-- C8 — retention cleanup deletes exactly the rows older than the cutoff from both
tables: what remains is a sublist of what was there (surviving rows are unchanged,
in order), a row survives in `analysis_results` iff it was present and its date is
at or after the cutoff, and likewise for `analysis_summary`.
(`cleanup_old_data` lines 371-390.) -/
theorem retention_cleanup_frame (db : DB) (cutoff : String) :
    ((cleanup_old_data db cutoff).results.Sublist db.results) ∧
    ((cleanup_old_data db cutoff).summary.Sublist db.summary) ∧
    (∀ r : ResultRow,
      r ∈ (cleanup_old_data db cutoff).results ↔ r ∈ db.results ∧ cutoff ≤ r.created_at) ∧
    (∀ srow : SummaryRow,
      srow ∈ (cleanup_old_data db cutoff).summary ↔ srow ∈ db.summary ∧ cutoff ≤ srow.date) := by
  refine ⟨List.filter_sublist _, List.filter_sublist _, fun r => ?_, fun srow => ?_⟩
  · simp [cleanup_old_data, List.mem_filter, not_lt]
  · simp [cleanup_old_data, List.mem_filter, not_lt]

theorem chompURLrest_length {l r : List Char} (h : chompURLrest l = some r) :
    r.length < l.length := by
  unfold chompURLrest at h
  split at h
  · split_ifs at h
    rename_i cs _
    cases h
    have := (List.dropWhile_sublist isURLChar (l := cs)).length_le
    simp only [List.length_cons]
    omega
  · cases h

theorem matchURL_length {l r : List Char} (h : matchURL l = some r) :
    r.length < l.length := by
  unfold matchURL at h
  split at h
  · have := chompURLrest_length h
    simp only [List.length_cons]
    omega
  · have := chompURLrest_length h
    simp only [List.length_cons]
    omega
  · cases h

/-- C2 (amended) — for every input that is empty or whose whitespace-stripped form
is shorter than 10 characters, `analyze` bypasses the adapters and the combiner and
returns the fixed too-short verdict, regardless of which classifiers are available.
(`analyze` lines 70-76.) -/
theorem too_short_input_short_circuits (getPreds : String → List (String × Prediction))
    (text : String) (h : text.data = [] ∨ (trimWS text.data).length < 10) :
    analyze getPreds text = some tooShortVerdict := by
  unfold analyze
  rw [if_pos h]

theorem too_short_input_short_circuits_witness :
    analyze (fun _ => []) "short" = some tooShortVerdict :=
  too_short_input_short_circuits (fun _ => []) "short" (by decide)

/-- C2 (counterexample) — the short-circuit guard tests the raw stripped text, not
the normalized text: this input normalizes to fewer than 10 characters, yet
`analyze` (here with no classifiers loaded) does not return the too-short verdict. -/
theorem short_normalized_does_not_short_circuit :
    (preprocess_text c2BadText).length < 10 ∧
    10 ≤ (trimWS c2BadText.data).length ∧
    analyze (fun _ => []) c2BadText ≠ some tooShortVerdict := by
  refine ⟨by decide, by decide, ?_⟩
  unfold analyze
  rw [if_neg (by decide)]
  simp [ensembleCombine, tooShortVerdict]

theorem lastDotBefore_none : ∀ (l : List Char) (k : ℕ), lastDotBefore l k = none →
    ∀ j, j < k → l[j]? ≠ some '.' := by
  intro l
  induction l with
  | nil => intro k _ j _; simp
  | cons c cs ih =>
    intro k h j hj
    cases k with
    | zero => omega
    | succ n =>
      rw [lastDotBefore] at h
      cases hcs : lastDotBefore cs n with
      | some d' => rw [hcs] at h; simp at h
      | none =>
        rw [hcs] at h
        simp only at h
        split_ifs at h with hc
        · cases j with
          | zero => simpa using hc
          | succ j' => simpa using ih n hcs j' (by omega)

theorem lastDotBefore_some : ∀ (l : List Char) (k d : ℕ), lastDotBefore l k = some d →
    d < k ∧ l[d]? = some '.' ∧ ∀ j, d < j → j < k → l[j]? ≠ some '.' := by
  intro l
  induction l with
  | nil => intro k d h; cases k <;> simp [lastDotBefore] at h
  | cons c cs ih =>
    intro k d h
    cases k with
    | zero => simp [lastDotBefore] at h
    | succ n =>
      rw [lastDotBefore] at h
      cases hcs : lastDotBefore cs n with
      | some d' =>
        rw [hcs] at h
        simp only [Option.some.injEq] at h
        subst h
        obtain ⟨h1, h2, h3⟩ := ih n d' hcs
        refine ⟨by omega, by simpa using h2, ?_⟩
        intro j hj1 hj2
        cases j with
        | zero => omega
        | succ j' => simpa using h3 j' (by omega) (by omega)
      | none =>
        rw [hcs] at h
        simp only at h
        split_ifs at h with hc
        · simp only [Option.some.injEq] at h
          subst h
          refine ⟨Nat.succ_pos n, by simpa using hc, ?_⟩
          intro j hj1 hj2
          cases j with
          | zero => omega
          | succ j' => simpa using lastDotBefore_none cs n hcs j' (by omega)

theorem splitOnDot_no_dot {cs : List Char} (h : '.' ∉ cs) : splitOnDot cs = [cs] := by
  induction cs with
  | nil => rfl
  | cons c rest ih =>
    have hc : ¬ c = '.' := fun hc => h (hc ▸ List.mem_cons_self _ _)
    have hrest : '.' ∉ rest := fun hm => h (List.mem_cons_of_mem _ hm)
    rw [splitOnDot, if_neg hc, ih hrest]

theorem splitOnDot_split {a : List Char} (b : List Char) (h : '.' ∉ a) :
    splitOnDot (a ++ '.' :: b) = a :: splitOnDot b := by
  induction a with
  | nil => simp [splitOnDot]
  | cons c a' ih =>
    have hc : ¬ c = '.' := fun hc => h (hc ▸ List.mem_cons_self _ _)
    have ha' : '.' ∉ a' := fun hm => h (List.mem_cons_of_mem _ hm)
    rw [List.cons_append, splitOnDot, if_neg hc, ih ha']

theorem dot_decomposition (cs : List Char) :
    '.' ∉ cs ∨ ∃ a b, cs = a ++ '.' :: b ∧ '.' ∉ a := by
  induction cs with
  | nil => exact Or.inl (List.not_mem_nil _)
  | cons c cs' ih =>
    by_cases hc : c = '.'
    · subst hc
      exact Or.inr ⟨[], cs', rfl, List.not_mem_nil _⟩
    · rcases ih with hno | ⟨a, b, rfl, ha⟩
      · refine Or.inl ?_
        intro hm
        rcases List.mem_cons.mp hm with h | h
        · exact hc h.symm
        · exact hno h
      · refine Or.inr ⟨c :: a, b, rfl, ?_⟩
        intro hm
        rcases List.mem_cons.mp hm with h | h
        · exact hc h.symm
        · exact ha h

theorem take_append_length {α : Type} (a l : List α) (n : ℕ) :
    (a ++ l).take (a.length + n) = a ++ l.take n := by
  induction a with
  | nil => simp
  | cons c a' ih => simp [List.take, ih, Nat.succ_add]

theorem lastDotBefore_append {a : List Char} (b : List Char) (h : '.' ∉ a) :
    ∀ k, lastDotBefore (a ++ '.' :: b) k =
      if k ≤ a.length then none
      else
        match lastDotBefore b (k - a.length - 1) with
        | some d => some (a.length + 1 + d)
        | none => some a.length := by
  induction a with
  | nil =>
    intro k
    cases k with
    | zero => rfl
    | succ n =>
      simp only [List.nil_append, List.length_nil, Nat.le_zero, Nat.succ_ne_zero, if_false,
        Nat.zero_add, Nat.sub_zero]
      rw [lastDotBefore]
      have hn1 : n + 1 - 1 = n := by omega
      rw [hn1]
      cases hb : lastDotBefore b n with
      | some d => simp [Nat.add_comm]
      | none => simp
  | cons c a' ih =>
    have hc : ¬ c = '.' := fun hc => h (hc ▸ List.mem_cons_self _ _)
    have ha' : '.' ∉ a' := fun hm => h (List.mem_cons_of_mem _ hm)
    intro k
    cases k with
    | zero => rfl
    | succ n =>
      rw [List.cons_append, lastDotBefore, ih ha' n]
      by_cases hn : n ≤ a'.length
      · rw [if_pos hn]
        simp only
        rw [if_neg hc,
          if_pos (by simp only [List.length_cons]; omega : n + 1 ≤ (c :: a').length)]
      · rw [if_neg hn]
        have harg : n + 1 - (c :: a').length - 1 = n - a'.length - 1 := by
          simp only [List.length_cons]; omega
        rw [if_neg (by simp only [List.length_cons]; omega : ¬ (n + 1 ≤ (c :: a').length)),
          harg]
        cases hb : lastDotBefore b (n - a'.length - 1) with
        | some d =>
          simp only [List.length_cons]
          congr 1
          omega
        | none => simp only [List.length_cons]

theorem lastDotBefore_no_dot {cs : List Char} (h : '.' ∉ cs) :
    ∀ k, lastDotBefore cs k = none := by
  induction cs with
  | nil => intro k; cases k <;> rfl
  | cons c cs' ih =>
    have hc : ¬ c = '.' := fun hc => h (hc ▸ List.mem_cons_self _ _)
    have hcs' : '.' ∉ cs' := fun hm => h (List.mem_cons_of_mem _ hm)
    intro k
    cases k with
    | zero => rfl
    | succ n => rw [lastDotBefore, ih hcs' n]; simp only; rw [if_neg hc]

theorem truncLoop_eq (n : ℕ) : ∀ (cs acc : List Char), cs.length ≤ n →
    512 < acc.length + cs.length →
    truncLoop (splitOnDot cs) acc =
      match lastDotBefore cs (512 - acc.length) with
      | some d => acc ++ cs.take (d + 1)
      | none => acc := by
  induction n with
  | zero =>
    intro cs acc hlen hbig
    have hcs : cs = [] := List.eq_nil_of_length_eq_zero (Nat.le_zero.mp hlen)
    subst hcs
    rw [splitOnDot, truncLoop, if_neg (by simp only [List.length_nil] at hbig ⊢; omega),
      lastDotBefore_no_dot (List.not_mem_nil _)]
  | succ n ih =>
    intro cs acc hlen hbig
    rcases dot_decomposition cs with hno | ⟨a, b, rfl, hna⟩
    · rw [splitOnDot_no_dot hno, truncLoop, truncLoop, if_neg (by omega),
        lastDotBefore_no_dot hno]
    · rw [splitOnDot_split b hna, truncLoop, lastDotBefore_append b hna]
      have hcs_len : (a ++ '.' :: b).length = a.length + 1 + b.length := by
        simp [List.length_append]; omega
      by_cases hfit : acc.length + a.length < 512
      · rw [if_pos hfit]
        have hlb : b.length ≤ n := by rw [hcs_len] at hlen; omega
        have hacc_len : (acc ++ a ++ ['.']).length = acc.length + a.length + 1 := by
          simp [List.length_append]; omega
        have hbig' : 512 < (acc ++ a ++ ['.']).length + b.length := by
          rw [hacc_len]; rw [hcs_len] at hbig; omega
        rw [ih b (acc ++ a ++ ['.']) hlb hbig']
        rw [if_neg (by omega : ¬ (512 - acc.length ≤ a.length))]
        have harg : 512 - (acc ++ a ++ ['.']).length = 512 - acc.length - a.length - 1 := by
          rw [hacc_len]; omega
        rw [harg]
        cases hb : lastDotBefore b (512 - acc.length - a.length - 1) with
        | some d =>
          simp only
          have h1 : a.length + 1 + d + 1 = a.length + (d + 2) := by omega
          rw [h1, take_append_length]
          simp [List.append_assoc, List.take]
        | none =>
          simp only
          rw [take_append_length]
          simp [List.append_assoc, List.take]
      · rw [if_neg hfit, if_pos (by omega : 512 - acc.length ≤ a.length)]

/-- Always at most 512 characters out of the truncation stage. -/
theorem truncLoop_length_le (ss : List (List Char)) :
    ∀ acc : List Char, acc.length ≤ 512 → (truncLoop ss acc).length ≤ 512 := by
  induction ss with
  | nil => intro acc h; simpa [truncLoop] using h
  | cons s rest ih =>
    intro acc h
    rw [truncLoop]
    by_cases hfit : acc.length + s.length < 512
    · rw [if_pos hfit]
      exact ih _ (by simp [List.length_append]; omega)
    · rw [if_neg hfit]
      exact h

theorem truncateStep_length_le (l : List Char) : (truncateStep l).length ≤ 512 := by
  unfold truncateStep
  by_cases h1 : 512 < l.length
  · rw [if_pos h1]
    by_cases h2 : truncLoop (splitOnDot l) [] = []
    · rw [if_pos h2]
      simp only [List.length_take]
      omega
    · rw [if_neg h2]
      exact truncLoop_length_le _ [] (by simp)
  · rw [if_neg h1]
    omega

theorem trimWS_length_le (l : List Char) : (trimWS l).length ≤ l.length := by
  unfold trimWS
  calc ((l.dropWhile isWS).reverse.dropWhile isWS).reverse.length
      = ((l.dropWhile isWS).reverse.dropWhile isWS).length := List.length_reverse _
    _ ≤ (l.dropWhile isWS).reverse.length := (List.dropWhile_sublist isWS).length_le
    _ = (l.dropWhile isWS).length := List.length_reverse _
    _ ≤ l.length := (List.dropWhile_sublist isWS).length_le

/-- C7 — the truncation stage emits at most 512 characters (as does the whole
normalizer); on cleaned text longer than 512 it cuts right after the last `.` whose
index is below 512, and hard-truncates to exactly the first 512 characters when no
such boundary exists; `lastDotBefore` provably picks that last boundary.
(`_preprocess_text` lines 117-130.) -/
theorem truncation_cuts_at_sentence_boundary :
    (∀ l : List Char, (truncateStep l).length ≤ 512) ∧
    (∀ s : String, (preprocess_text s).length ≤ 512) ∧
    (∀ l : List Char, 512 < l.length → truncateStep l = cutSpecTruncate l) ∧
    (∀ (l : List Char) (k d : ℕ), lastDotBefore l k = some d →
      d < k ∧ l[d]? = some '.' ∧ ∀ j, d < j → j < k → l[j]? ≠ some '.') ∧
    (∀ (l : List Char) (k : ℕ), lastDotBefore l k = none →
      ∀ j, j < k → l[j]? ≠ some '.') := by
  refine ⟨truncateStep_length_le, ?_, ?_, lastDotBefore_some, lastDotBefore_none⟩
  · intro s
    show (normalizeL s.data).length ≤ 512
    unfold normalizeL
    exact le_trans (trimWS_length_le _) (truncateStep_length_le _)
  · intro l hl
    unfold truncateStep
    rw [if_pos hl]
    have h := truncLoop_eq l.length l [] (le_refl _) (by simpa using hl)
    simp only [List.length_nil, Nat.sub_zero, List.nil_append] at h
    rw [h]
    unfold cutSpecTruncate
    cases hld : lastDotBefore l 512 with
    | some d =>
      simp only
      rw [if_neg]
      intro htake
      rcases List.take_eq_nil_iff.mp htake with h0 | h0
      · exact Nat.succ_ne_zero d h0
      · rw [h0] at hl
        simp at hl
    | none =>
      simp only
      rw [if_true]

theorem truncation_cuts_at_sentence_boundary_witness :
    512 < c7WitnessList.length ∧ truncateStep c7WitnessList = cutSpecTruncate c7WitnessList := by
  have hlen : 512 < c7WitnessList.length := by
    simp only [c7WitnessList, List.length_append, List.length_replicate, List.length_cons]
    omega
  exact ⟨hlen, truncation_cuts_at_sentence_boundary.2.2.1 c7WitnessList hlen⟩

/-! ### Second-pass behavior of the normalizer (claim C6) -/

theorem chompURLrest_none {l : List Char} (h : ∀ c ∈ l, c ≠ '/') :
    chompURLrest l = none := by
  unfold chompURLrest
  split
  · exact absurd rfl (h '/' (by simp))
  · rfl

theorem matchURL_none {l : List Char} (h : ∀ c ∈ l, c ≠ '/') : matchURL l = none := by
  unfold matchURL
  split
  · exact chompURLrest_none (fun c hc => h c (by simp [hc]))
  · exact chompURLrest_none (fun c hc => h c (by simp [hc]))
  · rfl

theorem urlSubAux_id (fuel : ℕ) : ∀ l : List Char, (∀ c ∈ l, c ≠ '/') →
    urlSubAux fuel l = l := by
  induction fuel with
  | zero => intro l _; rfl
  | succ n ih =>
    intro l h
    cases l with
    | nil => rfl
    | cons c cs =>
      rw [urlSubAux, matchURL_none h, ih cs (fun x hx => h x (List.mem_cons_of_mem _ hx))]

theorem urlSub_id {l : List Char} (h : ∀ c ∈ l, c ≠ '/') : urlSub l = l :=
  urlSubAux_id l.length l h

theorem emailRunBody_false {l : List Char} (h : '@' ∉ l) : emailRunBody l = false := by
  induction l with
  | nil => rfl
  | cons c rest ih =>
    cases rest with
    | nil => rfl
    | cons d rest' =>
      have hc : ¬ c = '@' := fun hc => h (hc ▸ List.mem_cons_self _ _)
      show (if c = '@' then true else emailRunBody (d :: rest')) = false
      rw [if_neg hc]
      exact ih (fun hm => h (List.mem_cons_of_mem _ hm))

theorem emailSubAux_id (fuel : ℕ) : ∀ l : List Char, '@' ∉ l →
    emailSubAux fuel l = l := by
  induction fuel with
  | zero => intro l _; rfl
  | succ n ih =>
    intro l h
    cases l with
    | nil => rfl
    | cons c cs =>
      have hcs : '@' ∉ cs := fun hm => h (List.mem_cons_of_mem _ hm)
      rw [emailSubAux]
      by_cases hws : isWS c = true
      · rw [if_pos hws, ih cs hcs]
      · rw [if_neg hws,
          if_neg (by
            rw [emailRunBody_false]
            · simp
            · intro hm
              exact hcs ((List.takeWhile_sublist _).subset hm)),
          ih cs hcs]

theorem emailSub_id {l : List Char} (h : '@' ∉ l) : emailSub l = l :=
  emailSubAux_id l.length l h

theorem mem_collapseAux {c : Char} : ∀ (l : List Char) (b : Bool),
    c ∈ collapseAux b l → c ∈ l ∨ c = ' ' := by
  intro l
  induction l with
  | nil => intro b h; cases b <;> simp [collapseAux] at h
  | cons d rest ih =>
    intro b h
    by_cases hws : isWS d = true
    · cases b with
      | true =>
        rw [collapseAux, if_pos hws] at h
        rcases ih true h with hm | hsp
        · exact Or.inl (List.mem_cons_of_mem _ hm)
        · exact Or.inr hsp
      | false =>
        rw [collapseAux, if_pos hws] at h
        rcases List.mem_cons.mp h with hc | hmem
        · exact Or.inr hc
        · rcases ih true hmem with hm | hsp
          · exact Or.inl (List.mem_cons_of_mem _ hm)
          · exact Or.inr hsp
    · cases b with
      | true =>
        rw [collapseAux, if_neg hws] at h
        rcases List.mem_cons.mp h with hc | hmem
        · exact Or.inl (hc ▸ List.mem_cons_self _ _)
        · rcases ih false hmem with hm | hsp
          · exact Or.inl (List.mem_cons_of_mem _ hm)
          · exact Or.inr hsp
      | false =>
        rw [collapseAux, if_neg hws] at h
        rcases List.mem_cons.mp h with hc | hmem
        · exact Or.inl (hc ▸ List.mem_cons_self _ _)
        · rcases ih false hmem with hm | hsp
          · exact Or.inl (List.mem_cons_of_mem _ hm)
          · exact Or.inr hsp

theorem collapseAux_length_le : ∀ (l : List Char) (b : Bool),
    (collapseAux b l).length ≤ l.length := by
  intro l
  induction l with
  | nil => intro b; cases b <;> simp [collapseAux]
  | cons d rest ih =>
    intro b
    by_cases hws : isWS d = true
    · cases b with
      | true =>
        rw [collapseAux, if_pos hws]
        have := ih true
        simp only [List.length_cons]
        omega
      | false =>
        rw [collapseAux, if_pos hws]
        have := ih true
        simp only [List.length_cons]
        omega
    · cases b with
      | true =>
        rw [collapseAux, if_neg hws]
        have := ih false
        simp only [List.length_cons]
        omega
      | false =>
        rw [collapseAux, if_neg hws]
        have := ih false
        simp only [List.length_cons]
        omega

theorem splitOnDot_mem : ∀ (l : List Char) (s : List Char), s ∈ splitOnDot l →
    ∀ c ∈ s, c ∈ l := by
  intro l
  induction l with
  | nil =>
    intro s hs c hc
    simp [splitOnDot] at hs
    subst hs
    simp at hc
  | cons d rest ih =>
    intro s hs c hc
    rw [splitOnDot] at hs
    by_cases hd : d = '.'
    · rw [if_pos hd] at hs
      rcases List.mem_cons.mp hs with hnil | hmem
      · subst hnil; simp at hc
      · exact List.mem_cons_of_mem _ (ih s hmem c hc)
    · rw [if_neg hd] at hs
      cases hsp : splitOnDot rest with
      | nil =>
        rw [hsp] at hs
        simp at hs
        subst hs
        have hcd : c = d := by simpa using hc
        exact hcd ▸ List.mem_cons_self _ _
      | cons hh tt =>
        rw [hsp] at hs
        rcases List.mem_cons.mp hs with hcons | hmem
        · subst hcons
          rcases List.mem_cons.mp hc with hcd | hch
          · exact hcd ▸ List.mem_cons_self _ _
          · exact List.mem_cons_of_mem _ (ih hh (hsp ▸ List.mem_cons_self _ _) c hch)
        · exact List.mem_cons_of_mem _ (ih s (hsp ▸ List.mem_cons_of_mem _ hmem) c hc)

theorem truncLoop_mem : ∀ (ss : List (List Char)) (acc : List Char) (c : Char),
    c ∈ truncLoop ss acc → c ∈ acc ∨ (∃ s ∈ ss, c ∈ s) ∨ c = '.' := by
  intro ss
  induction ss with
  | nil => intro acc c h; exact Or.inl (by simpa [truncLoop] using h)
  | cons s rest ih =>
    intro acc c h
    rw [truncLoop] at h
    by_cases hfit : acc.length + s.length < 512
    · rw [if_pos hfit] at h
      rcases ih _ c h with hacc | hrest | hdot
      · rcases List.mem_append.mp hacc with h1 | h2
        · rcases List.mem_append.mp h1 with ha | hs
          · exact Or.inl ha
          · exact Or.inr (Or.inl ⟨s, List.mem_cons_self _ _, hs⟩)
        · exact Or.inr (Or.inr (by simpa using h2))
      · obtain ⟨t, ht, hct⟩ := hrest
        exact Or.inr (Or.inl ⟨t, List.mem_cons_of_mem _ ht, hct⟩)
      · exact Or.inr (Or.inr hdot)
    · rw [if_neg hfit] at h
      exact Or.inl h

theorem truncateStep_mem {l : List Char} {c : Char} (h : c ∈ truncateStep l) :
    c ∈ l ∨ c = '.' := by
  unfold truncateStep at h
  by_cases h1 : 512 < l.length
  · rw [if_pos h1] at h
    by_cases h2 : truncLoop (splitOnDot l) [] = []
    · rw [if_pos h2] at h
      exact Or.inl (List.take_subset _ _ h)
    · rw [if_neg h2] at h
      rcases truncLoop_mem _ [] c h with hacc | hss | hdot
      · simp at hacc
      · obtain ⟨s, hs, hcs⟩ := hss
        exact Or.inl (splitOnDot_mem l s hs c hcs)
      · exact Or.inr hdot
  · rw [if_neg h1] at h
    exact Or.inl h

theorem trimWS_subset (l : List Char) : trimWS l ⊆ l := by
  intro c hc
  unfold trimWS at hc
  rw [List.mem_reverse] at hc
  have h1 := (List.dropWhile_sublist isWS).subset hc
  rw [List.mem_reverse] at h1
  exact (List.dropWhile_sublist isWS).subset h1

/-- Every character of a normalized text lies in the kept character class. -/
theorem mem_normalizeL_kept {x : List Char} {c : Char} (h : c ∈ normalizeL x) :
    isKeptChar c = true := by
  unfold normalizeL at h
  have h1 := trimWS_subset _ h
  rcases truncateStep_mem h1 with h2 | h2
  · exact (List.mem_filter.mp h2).2
  · subst h2
    decide

theorem head?_dropWhile_not (p : Char → Bool) :
    ∀ (l : List Char) (c : Char), (l.dropWhile p).head? = some c → p c = false := by
  intro l
  induction l with
  | nil => intro c h; simp at h
  | cons d rest ih =>
    intro c h
    by_cases hd : p d = true
    · rw [List.dropWhile_cons_of_pos hd] at h
      exact ih c h
    · rw [List.dropWhile_cons_of_neg hd] at h
      simp only [List.head?_cons, Option.some.injEq] at h
      subst h
      exact Bool.eq_false_iff.mpr hd

theorem trimWS_head {l : List Char} {c : Char} (h : (trimWS l).head? = some c) :
    isWS c = false := by
  unfold trimWS at h
  rw [List.head?_reverse] at h
  have hne : (l.dropWhile isWS).reverse.dropWhile isWS ≠ [] := by
    intro h0
    rw [h0] at h
    simp at h
  obtain ⟨t, ht⟩ := List.dropWhile_suffix (l := (l.dropWhile isWS).reverse) (p := isWS)
  have hl : ((l.dropWhile isWS).reverse.dropWhile isWS).getLast? = some c := h
  have : (t ++ (l.dropWhile isWS).reverse.dropWhile isWS).getLast? = some c := by
    rw [List.getLast?_append, hl]
    rfl
  rw [ht] at this
  rw [List.getLast?_reverse] at this
  exact head?_dropWhile_not isWS l c this

theorem trimWS_last {l : List Char} {c : Char} (h : (trimWS l).getLast? = some c) :
    isWS c = false := by
  unfold trimWS at h
  rw [List.getLast?_reverse] at h
  exact head?_dropWhile_not isWS _ c h

theorem dropWhile_eq_self_of_head {p : Char → Bool} {l : List Char}
    (h : ∀ c, l.head? = some c → p c = false) : l.dropWhile p = l := by
  cases l with
  | nil => rfl
  | cons c cs =>
    exact List.dropWhile_cons_of_neg (by simp [h c rfl])

theorem trimWS_eq_self {l : List Char}
    (h1 : ∀ c, l.head? = some c → isWS c = false)
    (h2 : ∀ c, l.getLast? = some c → isWS c = false) : trimWS l = l := by
  unfold trimWS
  rw [dropWhile_eq_self_of_head h1,
    dropWhile_eq_self_of_head (fun c hc => h2 c (by rwa [List.head?_reverse] at hc)),
    List.reverse_reverse]

theorem getLast?_cons_of_ne_nil {a : Char} {t : List Char} (h : t ≠ []) :
    (a :: t).getLast? = t.getLast? := by
  cases t with
  | nil => exact absurd rfl h
  | cons b t' => exact List.getLast?_cons_cons

theorem collapseAux_last {x : Char} (hx : isWS x = false) :
    ∀ (l : List Char) (b : Bool), l.getLast? = some x →
      (collapseAux b l).getLast? = some x := by
  intro l
  induction l with
  | nil => intro b h; simp at h
  | cons d rest ih =>
    intro b h
    cases rest with
    | nil =>
      have hdx : d = x := by simpa using h
      subst hdx
      cases b <;> rw [collapseAux, if_neg (by simp [hx])] <;> rfl
    | cons e rest' =>
      have htail : (e :: rest').getLast? = some x := by
        rwa [List.getLast?_cons_cons] at h
      have htail_ne : ∀ b' : Bool, collapseAux b' (e :: rest') ≠ [] := by
        intro b' h0
        have := ih b' htail
        rw [h0] at this
        simp at this
      by_cases hd : isWS d = true
      · cases b with
        | true =>
          rw [collapseAux, if_pos hd]
          exact ih true htail
        | false =>
          rw [collapseAux, if_pos hd, getLast?_cons_of_ne_nil (htail_ne true)]
          exact ih true htail
      · cases b with
        | true =>
          rw [collapseAux, if_neg hd, getLast?_cons_of_ne_nil (htail_ne false)]
          exact ih false htail
        | false =>
          rw [collapseAux, if_neg hd, getLast?_cons_of_ne_nil (htail_ne false)]
          exact ih false htail

theorem trim_collapse {l : List Char}
    (h1 : ∀ c, l.head? = some c → isWS c = false)
    (h2 : ∀ c, l.getLast? = some c → isWS c = false) :
    trimWS (collapseWS l) = collapseWS l := by
  apply trimWS_eq_self
  · intro c hc
    cases l with
    | nil => simp [collapseWS, collapseAux] at hc
    | cons d rest =>
      have hd : isWS d = false := h1 d rfl
      rw [collapseWS, collapseAux, if_neg (by simp [hd])] at hc
      simp only [List.head?_cons, Option.some.injEq] at hc
      subst hc
      exact hd
  · intro c hc
    cases hl : l.getLast? with
    | none =>
      have : l = [] := by
        cases l with
        | nil => rfl
        | cons d rest => simp [List.getLast?_eq_getLast] at hl
      subst this
      simp [collapseWS, collapseAux] at hc
    | some x =>
      have hx := h2 x hl
      have := collapseAux_last hx l false hl
      rw [collapseWS] at hc
      rw [this] at hc
      have hcx : x = c := by simpa using hc
      subst hcx
      exact hx

theorem truncateStep_id {l : List Char} (h : l.length ≤ 512) : truncateStep l = l := by
  unfold truncateStep
  rw [if_neg (by omega)]

/-- The second pass of the normalizer over its own output performs exactly the
whitespace-collapsing step: URL and email removal find nothing (the kept-character
class contains neither `/` nor `@`), the character filter and the truncation are
identities, and the final strip changes nothing. -/
theorem normalizeL_twice (x : List Char) :
    normalizeL (normalizeL x) = collapseWS (normalizeL x) := by
  have hkept : ∀ c ∈ normalizeL x, isKeptChar c = true := fun _ hc => mem_normalizeL_kept hc
  have hslash : ∀ c ∈ normalizeL x, c ≠ '/' := by
    intro c hc h
    subst h
    exact absurd (hkept '/' hc) (by decide)
  have hat : '@' ∉ normalizeL x := fun hm => absurd (hkept '@' hm) (by decide)
  have hlen : (normalizeL x).length ≤ 512 := by
    unfold normalizeL
    exact le_trans (trimWS_length_le _) (truncateStep_length_le _)
  have hfilter : filterChars (collapseWS (normalizeL x)) = collapseWS (normalizeL x) := by
    refine List.filter_eq_self.mpr (fun c hc => ?_)
    rcases mem_collapseAux _ _ hc with hm | hsp
    · exact hkept c hm
    · subst hsp
      decide
  have htrunc : truncateStep (collapseWS (normalizeL x)) = collapseWS (normalizeL x) :=
    truncateStep_id (le_trans (collapseAux_length_le _ _) hlen)
  have htrim : trimWS (collapseWS (normalizeL x)) = collapseWS (normalizeL x) :=
    trim_collapse (fun c hc => trimWS_head hc) (fun c hc => trimWS_last hc)
  conv_lhs => rw [normalizeL]
  rw [urlSub_id hslash, emailSub_id hat]
  show trimWS (truncateStep (filterChars (collapseWS (normalizeL x)))) = _
  rw [hfilter, htrunc, htrim]

/-- C6 (counterexample) — `normalize` is not idempotent: removing a disallowed
character between two spaced words leaves a double space, which a second pass
collapses.  `normalize "a # b" = "a  b"` but `normalize "a  b" = "a b"`. -/
theorem normalize_not_idempotent :
    preprocess_text (preprocess_text "a # b") ≠ preprocess_text "a # b" := by decide

/-- C6 (amended) — the text normalizer is idempotent up to whitespace collapsing:
a second pass equals a single whitespace-collapse of the first pass's output (URL
and email removal, character filtering, truncation and trimming change nothing on a
second pass), and on every input whose normalized form is already
whitespace-collapsed the normalizer is idempotent.  (`_preprocess_text`
lines 103-130.) -/
theorem normalize_second_pass_is_collapse :
    (∀ s : String,
      preprocess_text (preprocess_text s) = ⟨collapseWS (preprocess_text s).data⟩) ∧
    (∀ s : String, collapseWS (preprocess_text s).data = (preprocess_text s).data →
      preprocess_text (preprocess_text s) = preprocess_text s) := by
  have key : ∀ s : String,
      preprocess_text (preprocess_text s) = ⟨collapseWS (preprocess_text s).data⟩ := by
    intro s
    show (⟨normalizeL (normalizeL s.data)⟩ : String) = _
    rw [normalizeL_twice]
    rfl
  refine ⟨key, fun s h => ?_⟩
  rw [key s]
  exact congrArg String.mk h

theorem normalize_second_pass_is_collapse_witness :
    preprocess_text (preprocess_text "hello world") = preprocess_text "hello world" :=
  normalize_second_pass_is_collapse.2 "hello world" (by decide)

end NewsSentiment
